import Mathlib

/-!
Shallow embedding of the batch-acquisition core of `steam_data_downloader`
(`src/1-data-collection.py`) and proofs about it.

The embedding models:
* the batch boundary computation of `process_batches`
  (`np.arange(begin, end, batchsize)` with `end` appended, lines 102-104);
* the per-batch loop: fetch a chunk with `get_app_data`, append the rows to the
  data file with `csv.DictWriter.writerows`, then overwrite the index file with
  the chunk's `stop` (lines 109-136);
* `get_request` retry behaviour (lines 18-52), driven by an explicit stream of
  attempt outcomes;
* the checkpoint files: `get_index` / the index-save step, with the file content
  modelled character by character (lines 131-136, 162-173);
* `prepare_data_file` (lines 175-182).

Wall-clock sleeping, console printing and the batch-timing statistics have no
effect on the persisted data and are not modelled.
-/

deriving instance DecidableEq for Except

namespace SteamData

/-- One row of `app_list`: the `appid` and `name` fields used by
`get_app_data` (lines 65-66). -/
structure Item where
  appid : Nat
  name : String
deriving DecidableEq, Repr

/-- A record produced by a parser for one item: a Python dict, modelled as an
association list from field name to (stringified) value. -/
abbrev Record := List (String × String)

/-- Python slice `l[start:stop]` for nonnegative bounds: it clamps at the end
of the list instead of failing (used at line 62, `app_list[start:stop]`). -/
def slicePy {α : Type} (l : List α) (start stop : Nat) : List α :=
  (l.drop start).take (stop - start)

/-- `np.arange(b, e, s)` on nonnegative integers: the `⌈(e-b)/s⌉` values
`b, b + s, b + 2*s, …`, all below `e` (line 103). -/
def arange (b e s : Nat) : List Nat :=
  (List.range ((e - b + s - 1) / s)).map (fun i => b + s * i)

/-- The boundary array of `process_batches`:
`batches = np.append(np.arange(begin, end, batchsize), end)` (lines 103-104). -/
def batches (b e s : Nat) : List Nat := arange b e s ++ [e]

/-- The consecutive pairs `(batches[i], batches[i+1])`: the `(start, stop)`
ranges processed by the loop at lines 109-113. -/
def chunksOf : List Nat → List (Nat × Nat)
  | x :: y :: rest => (x, y) :: chunksOf (y :: rest)
  | _ => []

/-- The item indices `start, …, stop - 1` covered by one chunk. -/
def chunkItems (c : Nat × Nat) : List Nat := List.range' c.1 (c.2 - c.1)

/-- Looking a field up in a record (Python `dict` access by the writer). -/
def lookupField (r : Record) (c : String) : Option String := r.lookup c

/-- One output row of `csv.DictWriter(f, fieldnames=columns, extrasaction='ignore')`
(line 120): one cell per schema column, taken from the record when the field is
present and blank otherwise (default `restval`); record fields outside the
schema are dropped by `extrasaction='ignore'`. -/
def csvRow (columns : List String) (r : Record) : List String :=
  columns.map (fun c => (lookupField r c).getD "")

/-- `writer.writerows(app_data)` (line 126): one row per record, in order. -/
def writerows (columns : List String) (rs : List Record) : List (List String) :=
  rs.map (csvRow columns)

/-- `get_app_data(start, stop, parser, pause)` (lines 54-74): one record per
row of `app_list[start:stop]`, produced by `parser(appid, name)`; the
`time.sleep(pause)` pacing does not affect the data and is not modelled. -/
def get_app_data (app_list : List Item) (start stop : Nat)
    (parser : Nat → String → Record) : List Record :=
  (slicePy app_list start stop).map (fun row => parser row.appid row.name)

/-- The durable state touched by `process_batches`: the rows of the data file
and the successive values written to the index file (the index file itself only
keeps the last one; the list records the whole persisted sequence). -/
structure BatchState where
  dataFile : List (List String)
  savedIndices : List Nat
deriving DecidableEq, Repr

/-- One iteration of the `process_batches` loop (lines 109-136): fetch the
chunk, append its rows to the data file, then persist `index = stop`. -/
def runChunk (app_list : List Item) (parser : Nat → String → Record)
    (columns : List String) (st : BatchState) (c : Nat × Nat) : BatchState :=
  { dataFile := st.dataFile ++ writerows columns (get_app_data app_list c.1 c.2 parser),
    savedIndices := st.savedIndices ++ [c.2] }

/-- `process_batches` (lines 76-153) for an infallible parser, starting from
empty durable state: fold the loop body over the chunk list. -/
def process_batches (app_list : List Item) (parser : Nat → String → Record)
    (columns : List String) (b e s : Nat) : BatchState :=
  (chunksOf (batches b e s)).foldl (runChunk app_list parser columns) ⟨[], []⟩

/-- The durable state after the first `k` iterations of the loop. -/
def stateAfter (app_list : List Item) (parser : Nat → String → Record)
    (columns : List String) (b e s k : Nat) : BatchState :=
  ((chunksOf (batches b e s)).take k).foldl (runChunk app_list parser columns) ⟨[], []⟩

/-- The Python exceptions this module can raise or propagate. -/
inductive PyExn where
  | connectionError
  | jsonDecodeError
  | valueError
deriving DecidableEq, Repr

/-- The outcome of one `requests.get` attempt, as `get_request` (lines 32-52)
classifies it:
* `sslError` — the call raised `ssl.SSLError` (the only caught exception);
* `connectionError` — the call raised a connection error that is not an
  `ssl.SSLError` (not caught at line 34);
* `falsyResponse` — the call returned but the response tests falsy
  (no response / error status, line 45);
* `okJson v` — truthy response whose body decodes to the JSON value `v`;
* `okMalformed` — truthy response whose body fails to decode
  (`response.json()` raises, line 46). -/
inductive AttemptResult (α : Type) where
  | sslError
  | connectionError
  | falsyResponse
  | okJson (v : α)
  | okMalformed
deriving DecidableEq, Repr

/-- What a call of `get_request` does, seen from its caller. `retrying` means
the modelled attempt stream ran out while the function was still retrying. -/
inductive FetchResult (α : Type) where
  | returns (v : α)
  | raises (e : PyExn)
  | retrying
deriving DecidableEq, Repr

/-- `get_request(url, parameters)` (lines 18-52), driven by the stream of
attempt outcomes the network produces for the successive tries: `ssl.SSLError`
is caught and retried after a 5s countdown (lines 34-43); a falsy response is
retried after 10s (lines 47-52); a truthy response is decoded and returned
(line 46). Any other exception — a non-SSL connection error from
`requests.get`, or `response.json()` failing on a malformed body — propagates
to the caller. -/
def get_request {α : Type} : List (AttemptResult α) → FetchResult α
  | [] => FetchResult.retrying
  | AttemptResult.sslError :: rest => get_request rest
  | AttemptResult.falsyResponse :: rest => get_request rest
  | AttemptResult.connectionError :: _ => FetchResult.raises PyExn.connectionError
  | AttemptResult.okJson v :: _ => FetchResult.returns v
  | AttemptResult.okMalformed :: _ => FetchResult.raises PyExn.jsonDecodeError

/-- The fetch loop of `get_app_data` (lines 62-72) when the parser may raise:
records accumulate in order and the first exception aborts the loop, dropping
everything accumulated so far (the local `app_data` list is lost). -/
def fetchRows (parserE : Nat → String → Except PyExn Record) :
    List Item → Except PyExn (List Record)
  | [] => Except.ok []
  | row :: rest =>
    match parserE row.appid row.name with
    | Except.error exn => Except.error exn
    | Except.ok r =>
      match fetchRows parserE rest with
      | Except.error exn => Except.error exn
      | Except.ok rs => Except.ok (r :: rs)

/-- `get_app_data` for a parser that may raise. -/
def get_app_data_e (app_list : List Item) (start stop : Nat)
    (parserE : Nat → String → Except PyExn Record) : Except PyExn (List Record) :=
  fetchRows parserE (slicePy app_list start stop)

/-- The `process_batches` loop for a parser that may raise: an uncaught parser
exception aborts the run before the batch's file write and before the index
write, so the error carries the durable state exactly as it was left. -/
def process_chunks_e (app_list : List Item)
    (parserE : Nat → String → Except PyExn Record) (columns : List String) :
    BatchState → List (Nat × Nat) → Except (PyExn × BatchState) BatchState
  | st, [] => Except.ok st
  | st, c :: rest =>
    match get_app_data_e app_list c.1 c.2 parserE with
    | Except.error exn => Except.error (exn, st)
    | Except.ok app_data =>
      process_chunks_e app_list parserE columns
        { dataFile := st.dataFile ++ writerows columns app_data,
          savedIndices := st.savedIndices ++ [c.2] } rest

/-- `process_batches` for a parser that may raise, from empty durable state. -/
def process_batches_e (app_list : List Item)
    (parserE : Nat → String → Except PyExn Record) (columns : List String)
    (b e s : Nat) : Except (PyExn × BatchState) BatchState :=
  process_chunks_e app_list parserE columns ⟨[], []⟩ (chunksOf (batches b e s))

/-- Lines 99-100 of `process_batches`: `if end == -1: end = len(app_list) + 1`. -/
def effective_end (appLen : Nat) (e : Int) : Int :=
  if e = -1 then (appLen : Int) + 1 else e

/-- `prepare_data_file` (lines 175-182). The file is modelled by its rows,
`none` meaning it does not exist. When `index == 0`, `open(rel_path, 'w')`
truncates (or creates) the file and `writer.writeheader()` writes the single
row of column names; otherwise no file operation happens at all. -/
def prepare_data_file (file : Option (List (List String))) (index : Int)
    (columns : List String) : Option (List (List String)) :=
  if index = 0 then some [columns] else file

/-- The characters Python's `str.strip()` / `int()` treat as whitespace. -/
def pyIsSpace (c : Char) : Bool :=
  c == ' ' || c == '\t' || c == '\n' || c == '\r' || c == '\x0b' || c == '\x0c'

/-- Surrounding whitespace stripped from both ends, as `int()` does. -/
def trimWs (cs : List Char) : List Char :=
  ((cs.dropWhile pyIsSpace).reverse.dropWhile pyIsSpace).reverse

/-- An ASCII decimal digit. -/
def isDigitChar (c : Char) : Bool := '0' ≤ c && c ≤ '9'

/-- The value of a string of decimal digits, most significant first. -/
def digitsVal (cs : List Char) : Nat :=
  cs.foldl (fun a c => 10 * a + (c.toNat - 48)) 0

/-- Python `int(string)` (line 168): strips surrounding whitespace, accepts an
optional sign followed by decimal digits, and signals `ValueError` (`none`)
otherwise. (Digit-group underscores, accepted by Python 3.6+, are not
modelled; every input used here is without them.) -/
def pyInt (cs : List Char) : Option Int :=
  let t := trimWs cs
  if !t.isEmpty && t.all isDigitChar then
    some (Int.ofNat (digitsVal t))
  else if t.head? == some '-' && !t.tail.isEmpty && t.tail.all isDigitChar then
    some (-(Int.ofNat (digitsVal t.tail)))
  else if t.head? == some '+' && !t.tail.isEmpty && t.tail.all isDigitChar then
    some (Int.ofNat (digitsVal t.tail))
  else none

/-- `f.readline()` (line 168): the first line of the file, including its
terminating newline when there is one. -/
def readline : List Char → List Char
  | [] => []
  | c :: rest => if c = '\n' then ['\n'] else c :: readline rest

/-- `get_index` (lines 162-173) on the content of the index file (`none`
meaning the file does not exist, which raises `FileNotFoundError` — the only
exception the function catches, turning it into index 0). A first line that
`int()` cannot parse raises `ValueError`, which is not caught. -/
def get_index (file : Option (List Char)) : Except PyExn Int :=
  match file with
  | none => Except.ok 0
  | some cs =>
    match pyInt (readline cs) with
    | some v => Except.ok v
    | none => Except.error PyExn.valueError

/-- `str(n)` for a natural number: its base-10 digits. -/
def natRepr (n : Nat) : List Char :=
  if h : n < 10 then [Char.ofNat (48 + n)]
  else natRepr (n / 10) ++ [Char.ofNat (48 + n % 10)]
  termination_by n
  decreasing_by
    exact Nat.div_lt_self (by omega) (by omega)

/-- The index-save step of `process_batches` (lines 134-136) and of
`reset_index` (lines 155-160): `open(idx_path, 'w')` truncates the file and
`print(index, file=f)` writes the decimal digits followed by a newline. -/
def save_index (v : Nat) : List Char := natRepr v ++ ['\n']

/-! ### Structure of the batch boundary array -/

lemma arange_count_zero {b e s : Nat} (h : e ≤ b) : (e - b + s - 1) / s = 0 := by
  rcases Nat.eq_zero_or_pos s with hs | hs
  · simp [hs]
  · exact Nat.div_eq_of_lt (by omega)

lemma arange_of_le {b e s : Nat} (h : e ≤ b) : arange b e s = [] := by
  unfold arange
  rw [arange_count_zero h]
  rfl

lemma arange_count_succ {b e s : Nat} (hs : 0 < s) (hlt : b < e) :
    (e - b + s - 1) / s = (e - (b + s) + s - 1) / s + 1 := by
  have h1 : e - b + s - 1 = (e - b - 1) + s := by omega
  rw [h1, Nat.add_div_right _ hs]
  congr 1
  rcases le_or_lt (e - b) s with hc | hc
  · have h2 : e - (b + s) + s - 1 = s - 1 := by omega
    rw [h2, Nat.div_eq_of_lt (by omega), Nat.div_eq_of_lt (by omega)]
  · have h3 : e - (b + s) + s - 1 = e - b - 1 := by omega
    rw [h3]

lemma arange_cons {b e s : Nat} (hs : 0 < s) (hlt : b < e) :
    arange b e s = b :: arange (b + s) e s := by
  unfold arange
  rw [arange_count_succ hs hlt, List.range_succ_eq_map]
  simp only [List.map_cons, List.map_map, Nat.mul_zero, Nat.add_zero]
  refine congrArg (b :: ·) (List.map_congr_left ?_)
  intro a _
  simp only [Function.comp_apply, Nat.succ_eq_add_one]
  ring

/-- Unfolding the boundary array one chunk at a time: the second boundary is
`min (b + s) e` (the next arange point, or `e` when the last chunk is short). -/
lemma batches_cons {b e s : Nat} (hs : 0 < s) (hlt : b < e) :
    batches b e s = b :: batches (min (b + s) e) e s := by
  unfold batches
  rw [arange_cons hs hlt]
  rcases Nat.lt_or_ge (b + s) e with hc | hc
  · rw [Nat.min_eq_left (by omega)]
    rfl
  · rw [Nat.min_eq_right (by omega), arange_of_le hc, arange_of_le (Nat.le_refl e)]
    rfl

lemma batches_head {b e s : Nat} (hs : 0 < s) (hbe : b ≤ e) :
    ∃ t, batches b e s = b :: t := by
  rcases Nat.lt_or_ge b e with hlt | hge
  · exact ⟨_, batches_cons hs hlt⟩
  · have hb : b = e := by omega
    subst hb
    refine ⟨[], ?_⟩
    unfold batches
    rw [arange_of_le (Nat.le_refl b)]
    rfl

lemma chunksOf_batches_self {b s : Nat} : chunksOf (batches b b s) = [] := by
  unfold batches
  rw [arange_of_le (Nat.le_refl b)]
  rfl

lemma chunksOf_batches_cons {b e s : Nat} (hs : 0 < s) (hlt : b < e) :
    chunksOf (batches b e s)
      = (b, min (b + s) e) :: chunksOf (batches (min (b + s) e) e s) := by
  rw [batches_cons hs hlt]
  obtain ⟨t, ht⟩ := batches_head hs (show min (b + s) e ≤ e by omega)
  rw [ht]
  rfl

/-- Generic coverage: whenever `f` assigns to every index range a list of
"contents" that concatenates along adjacent ranges, the chunk contents of one
run concatenate to the contents of the whole range `[b, e)`. -/
lemma flatten_chunks {α : Type} (f : Nat → Nat → List α)
    (hf0 : ∀ a, f a a = [])
    (hf : ∀ a m c, a ≤ m → m ≤ c → f a m ++ f m c = f a c)
    {s : Nat} (hs : 0 < s) :
    ∀ n b e, e - b = n → b ≤ e →
      ((chunksOf (batches b e s)).map (fun c => f c.1 c.2)).flatten = f b e := by
  intro n
  induction n using Nat.strong_induction_on with
  | _ n ih =>
    intro b e hn hbe
    rcases Nat.lt_or_ge b e with hlt | hge
    · rw [chunksOf_batches_cons hs hlt]
      simp only [List.map_cons, List.flatten_cons]
      rw [ih (e - min (b + s) e) (by omega) (min (b + s) e) e rfl (by omega)]
      exact hf b (min (b + s) e) e (by omega) (by omega)
    · have hb : b = e := by omega
      subst hb
      rw [chunksOf_batches_self]
      simp [hf0]

/-- The boundary array is non-decreasing from left to right. -/
lemma batches_chain {s : Nat} (hs : 0 < s) :
    ∀ n b e, e - b = n → b ≤ e → List.Chain' (· ≤ ·) (batches b e s) := by
  intro n
  induction n using Nat.strong_induction_on with
  | _ n ih =>
    intro b e hn hbe
    rcases Nat.lt_or_ge b e with hlt | hge
    · rw [batches_cons hs hlt]
      have hch := ih (e - min (b + s) e) (by omega) (min (b + s) e) e rfl (by omega)
      obtain ⟨t, ht⟩ := batches_head hs (show min (b + s) e ≤ e by omega)
      rw [ht] at hch ⊢
      exact (List.chain'_cons).mpr ⟨by omega, hch⟩
    · have hb : b = e := by omega
      subst hb
      obtain ⟨t, ht⟩ := batches_head hs (Nat.le_refl b)
      have ht' : t = [] := by
        have := congrArg List.length ht
        unfold batches at this
        rw [arange_of_le (Nat.le_refl b)] at this
        simpa using this.symm
      rw [ht, ht']
      simp

/-- Chunk sizes: every non-final chunk spans exactly `s` indices and the final
one spans `(e - b) % s` of them when that remainder is nonzero, `s` otherwise. -/
lemma chunk_sizes {s : Nat} (hs : 0 < s) :
    ∀ n b e, e - b = n → b ≤ e →
      (∀ c ∈ (chunksOf (batches b e s)).dropLast, c.2 - c.1 = s)
      ∧ (chunksOf (batches b e s)).getLast?.map (fun c => c.2 - c.1)
          = if b = e then none
            else some (if (e - b) % s = 0 then s else (e - b) % s) := by
  intro n
  induction n using Nat.strong_induction_on with
  | _ n ih =>
    intro b e hn hbe
    rcases Nat.lt_or_ge b e with hlt | hge
    · rcases Nat.lt_or_ge (b + s) e with hc | hc
      · -- an interior chunk of size s followed by at least one more chunk
        have hmin : min (b + s) e = b + s := by omega
        rw [chunksOf_batches_cons hs hlt, hmin]
        have hih := ih (e - (b + s)) (by omega) (b + s) e rfl (by omega)
        obtain ⟨c0, t0, hct⟩ :
            ∃ c0 t0, chunksOf (batches (b + s) e s) = c0 :: t0 := by
          rw [chunksOf_batches_cons hs hc]
          exact ⟨_, _, rfl⟩
        have hmod : (e - (b + s)) % s = (e - b) % s := by
          rw [Nat.mod_eq_sub_mod (show s ≤ e - b by omega)]
          congr 1
          omega
        constructor
        · intro c hcm
          rw [hct, List.dropLast_cons_of_ne_nil (by simp)] at hcm
          rcases List.mem_cons.mp hcm with h | h
          · subst h
            omega
          · have := hih.1
            rw [hct] at this
            exact this c h
        · rw [hct, List.getLast?_cons_cons]
          have h2 := hih.2
          rw [hct, if_neg (show ¬ b + s = e by omega), hmod] at h2
          rw [h2, if_neg (show ¬ b = e by omega)]
      · -- the final chunk, spanning [b, e)
        have hmin : min (b + s) e = e := by omega
        rw [chunksOf_batches_cons hs hlt, hmin, chunksOf_batches_self]
        constructor
        · simp
        · rw [if_neg (show ¬ b = e by omega)]
          have hg : (((b, e) : Nat × Nat) :: []).getLast? = some (b, e) := rfl
          rw [hg, Option.map_some']
          have hp : (b, e).2 - (b, e).1 = e - b := rfl
          rw [hp]
          congr 1
          rcases Nat.eq_or_lt_of_le (show e - b ≤ s by omega) with hco | hco
          · rw [hco, Nat.mod_self, if_pos rfl]
          · rw [Nat.mod_eq_of_lt hco, if_neg (by omega)]
    · have hb : b = e := by omega
      subst hb
      rw [chunksOf_batches_self]
      simp

lemma chunksOf_length : ∀ l : List Nat, (chunksOf l).length = l.length - 1
  | [] => rfl
  | [_] => rfl
  | _ :: y :: rest => by
    simp only [chunksOf, List.length_cons]
    rw [chunksOf_length (y :: rest)]
    simp

lemma chunksOf_getElem : ∀ (l : List Nat) (i : Nat) (h : i + 1 < l.length)
    (h2 : i < (chunksOf l).length), (chunksOf l)[i] = (l[i], l[i + 1])
  | _ :: _ :: _, 0, _, _ => rfl
  | x :: y :: rest, i + 1, h, h2 => by
    have hr : i + 1 < (y :: rest).length := by
      simpa using h
    have hr2 : i < (chunksOf (y :: rest)).length := by
      rw [chunksOf_length]
      simp only [List.length_cons] at hr ⊢
      omega
    have := chunksOf_getElem (y :: rest) i hr hr2
    simp only [chunksOf, List.getElem_cons_succ]
    exact this

/-! ### Slices of the item list -/

lemma slicePy_self {α : Type} (l : List α) (a : Nat) : slicePy l a a = [] := by
  unfold slicePy
  simp

lemma slicePy_append {α : Type} (l : List α) {a m c : Nat}
    (ham : a ≤ m) (hmc : m ≤ c) :
    slicePy l a m ++ slicePy l m c = slicePy l a c := by
  unfold slicePy
  have h1 : l.drop m = (l.drop a).drop (m - a) := by
    rw [List.drop_drop]
    congr 1
    omega
  have h2 : c - a = (m - a) + (c - m) := by omega
  rw [h1, h2, List.take_add]

lemma slicePy_of_length_le {α : Type} (l : List α) {a m : Nat}
    (h : l.length ≤ m) : slicePy l a m = l.drop a := by
  unfold slicePy
  apply List.take_of_length_le
  rw [List.length_drop]
  omega

lemma range'_segment {a m c : Nat} (ham : a ≤ m) (hmc : m ≤ c) :
    List.range' a (m - a) ++ List.range' m (c - m) = List.range' a (c - a) := by
  have h := List.range'_append a (m - a) (c - m) 1
  rw [Nat.one_mul, Nat.add_sub_cancel' ham] at h
  rw [h]
  congr 1
  omega

lemma get_app_data_self (app_list : List Item) (a : Nat)
    (parser : Nat → String → Record) : get_app_data app_list a a parser = [] := by
  unfold get_app_data
  rw [slicePy_self]
  rfl

lemma get_app_data_append (app_list : List Item) {a m c : Nat}
    (parser : Nat → String → Record) (ham : a ≤ m) (hmc : m ≤ c) :
    get_app_data app_list a m parser ++ get_app_data app_list m c parser
      = get_app_data app_list a c parser := by
  unfold get_app_data
  rw [← List.map_append, slicePy_append app_list ham hmc]

lemma writerows_append (columns : List String) (xs ys : List Record) :
    writerows columns (xs ++ ys) = writerows columns xs ++ writerows columns ys := by
  unfold writerows
  exact List.map_append _ xs ys

/-! ### The loop invariant of `process_batches` -/

lemma batches_get_zero {b e s : Nat} (hs : 0 < s) (hbe : b ≤ e)
    (h0 : 0 < (batches b e s).length) : (batches b e s)[0] = b := by
  obtain ⟨t, ht⟩ := batches_head hs hbe
  simp [ht]

lemma batches_le {b e s : Nat} (hs : 0 < s) (hbe : b ≤ e) {i j : Nat}
    (hij : i ≤ j) (hi : i < (batches b e s).length)
    (hj : j < (batches b e s).length) :
    (batches b e s)[i] ≤ (batches b e s)[j] := by
  rcases Nat.eq_or_lt_of_le hij with h | h
  · subst h
    exact Nat.le_refl _
  · have hp := (List.chain'_iff_pairwise).mp (batches_chain hs (e - b) b e rfl hbe)
    have := List.pairwise_iff_get.mp hp ⟨i, hi⟩ ⟨j, hj⟩ h
    simpa using this

lemma runChunk_savedIndices (app_list : List Item) (parser : Nat → String → Record)
    (columns : List String) (st : BatchState) (c : Nat × Nat) :
    (runChunk app_list parser columns st c).savedIndices
      = st.savedIndices ++ [c.2] := rfl

lemma runChunk_dataFile (app_list : List Item) (parser : Nat → String → Record)
    (columns : List String) (st : BatchState) (c : Nat × Nat) :
    (runChunk app_list parser columns st c).dataFile
      = st.dataFile ++ writerows columns (get_app_data app_list c.1 c.2 parser) := rfl

lemma stateAfter_succ (app_list : List Item) (parser : Nat → String → Record)
    (columns : List String) (b e s k : Nat)
    (hk : k < (chunksOf (batches b e s)).length) :
    stateAfter app_list parser columns b e s (k + 1)
      = runChunk app_list parser columns (stateAfter app_list parser columns b e s k)
          ((chunksOf (batches b e s))[k]) := by
  unfold stateAfter
  rw [List.take_succ, List.getElem?_eq_getElem hk]
  simp only [Option.toList_some]
  rw [List.foldl_append]
  rfl

/-- The loop invariant: after `k` completed iterations the index file has seen
exactly the first `k` interior boundaries (the stops of the written batches),
and the data file holds exactly the rows of the items in `[b, batches[k])`. -/
lemma state_spec (app_list : List Item) (parser : Nat → String → Record)
    (columns : List String) {b e s : Nat} (hs : 0 < s) (hbe : b ≤ e) :
    ∀ k (hk : k < (batches b e s).length),
      (stateAfter app_list parser columns b e s k).savedIndices
          = ((batches b e s).drop 1).take k
      ∧ (stateAfter app_list parser columns b e s k).dataFile
          = writerows columns (get_app_data app_list b ((batches b e s)[k]) parser) := by
  intro k
  induction k with
  | zero =>
    intro hk
    refine ⟨rfl, ?_⟩
    rw [batches_get_zero hs hbe hk, get_app_data_self]
    rfl
  | succ k ihk =>
    intro hk
    have hk' : k < (batches b e s).length := by omega
    have hkc : k < (chunksOf (batches b e s)).length := by
      rw [chunksOf_length]
      omega
    have hget := chunksOf_getElem (batches b e s) k hk hkc
    obtain ⟨ih1, ih2⟩ := ihk hk'
    rw [stateAfter_succ app_list parser columns b e s k hkc, hget]
    constructor
    · rw [runChunk_savedIndices, ih1]
      show ((batches b e s).drop 1).take k ++ [(batches b e s)[k + 1]]
          = ((batches b e s).drop 1).take (k + 1)
      rw [List.take_succ, List.getElem?_drop]
      have hik : 1 + k = k + 1 := by omega
      rw [hik, List.getElem?_eq_getElem hk]
      simp only [Option.toList_some]
    · rw [runChunk_dataFile, ih2]
      show writerows columns (get_app_data app_list b ((batches b e s)[k]) parser)
            ++ writerows columns
                (get_app_data app_list ((batches b e s)[k]) ((batches b e s)[k + 1]) parser)
          = writerows columns (get_app_data app_list b ((batches b e s)[k + 1]) parser)
      rw [← writerows_append]
      congr 1
      refine get_app_data_append app_list parser ?_ ?_
      · have h0 := batches_get_zero hs hbe (show 0 < (batches b e s).length by omega)
        have := batches_le hs hbe (Nat.zero_le k)
          (show 0 < (batches b e s).length by omega) hk'
        rw [h0] at this
        exact this
      · exact batches_le hs hbe (Nat.le_succ k) hk' hk

/-! ### Abort behaviour of the loop under a raising parser -/

/-- If the run aborts with durable state `st'`, then `st'` is exactly the
state after some fully completed prefix of the chunks, the chunk being
processed at the moment of the exception contributed nothing, and the index
file saw exactly the stops of the completed chunks. -/
lemma process_chunks_e_error (app_list : List Item)
    (parserE : Nat → String → Except PyExn Record) (columns : List String) :
    ∀ (l : List (Nat × Nat)) (st st' : BatchState) (exn : PyExn),
      process_chunks_e app_list parserE columns st l = Except.error (exn, st') →
      ∃ pre c post, l = pre ++ c :: post
        ∧ process_chunks_e app_list parserE columns st pre = Except.ok st'
        ∧ get_app_data_e app_list c.1 c.2 parserE = Except.error exn
        ∧ st'.savedIndices = st.savedIndices ++ pre.map Prod.snd
  | [], st, st', exn => by
    intro h
    exact absurd h (by simp [process_chunks_e])
  | c :: rest, st, st', exn => by
    intro h
    simp only [process_chunks_e] at h
    split at h
    case _ exn2 heq =>
      have h1 : exn2 = exn ∧ st = st' := by
        simpa using h
      obtain ⟨rfl, rfl⟩ := h1
      refine ⟨[], c, rest, rfl, rfl, heq, ?_⟩
      simp
    case _ app_data heq =>
      obtain ⟨pre, c', post, hl, hrun, hgad, hsave⟩ :=
        process_chunks_e_error app_list parserE columns rest
          { dataFile := st.dataFile ++ writerows columns app_data,
            savedIndices := st.savedIndices ++ [c.2] } st' exn h
      refine ⟨c :: pre, c', post, by simp [hl], ?_, hgad, ?_⟩
      · show process_chunks_e app_list parserE columns st (c :: pre) = Except.ok st'
        simp only [process_chunks_e]
        rw [heq]
        exact hrun
      · rw [hsave]
        simp

/-! ### The checkpoint file: digits, parsing and the round trip -/

lemma digitChar_toNat {d : Nat} (hd : d < 10) : (Char.ofNat (48 + d)).toNat = 48 + d := by
  interval_cases d <;> decide

lemma digitChar_digit {d : Nat} (hd : d < 10) :
    isDigitChar (Char.ofNat (48 + d)) = true := by
  interval_cases d <;> decide

lemma digitChar_not_space {d : Nat} (hd : d < 10) :
    pyIsSpace (Char.ofNat (48 + d)) = false := by
  interval_cases d <;> decide

lemma digitChar_ne_newline {d : Nat} (hd : d < 10) :
    Char.ofNat (48 + d) ≠ '\n' := by
  interval_cases d <;> decide

/-- Every character of `str(n)` is a decimal digit, and there is at least one. -/
lemma natRepr_shape : ∀ n : Nat, natRepr n ≠ []
    ∧ ∀ c ∈ natRepr n, ∃ d, d < 10 ∧ c = Char.ofNat (48 + d) := by
  intro n
  induction n using Nat.strong_induction_on with
  | _ n ih =>
    by_cases h : n < 10
    · rw [natRepr, dif_pos h]
      refine ⟨by simp, ?_⟩
      intro c hc
      rw [List.mem_singleton] at hc
      exact ⟨n, h, hc⟩
    · rw [natRepr, dif_neg h]
      refine ⟨by simp, ?_⟩
      intro c hc
      rcases List.mem_append.mp hc with hc | hc
      · exact (ih (n / 10) (Nat.div_lt_self (by omega) (by omega))).2 c hc
      · rw [List.mem_singleton] at hc
        exact ⟨n % 10, Nat.mod_lt n (by omega), hc⟩

lemma digitsVal_append_single (xs : List Char) (c : Char) :
    digitsVal (xs ++ [c]) = 10 * digitsVal xs + (c.toNat - 48) := by
  unfold digitsVal
  rw [List.foldl_append]
  rfl

/-- Parsing the decimal representation recovers the number. -/
lemma digitsVal_natRepr : ∀ n : Nat, digitsVal (natRepr n) = n := by
  intro n
  induction n using Nat.strong_induction_on with
  | _ n ih =>
    by_cases h : n < 10
    · rw [natRepr, dif_pos h]
      show 10 * 0 + ((Char.ofNat (48 + n)).toNat - 48) = n
      rw [digitChar_toNat h]
      omega
    · rw [natRepr, dif_neg h]
      rw [digitsVal_append_single, ih (n / 10) (Nat.div_lt_self (by omega) (by omega)),
        digitChar_toNat (Nat.mod_lt n (by omega))]
      omega

lemma readline_of_no_newline : ∀ {cs : List Char}, (∀ c ∈ cs, c ≠ '\n') →
    readline (cs ++ ['\n']) = cs ++ ['\n']
  | [], _ => rfl
  | c :: t, h => by
    have hc : ¬ c = '\n' := h c (by simp)
    show readline (c :: (t ++ ['\n'])) = c :: (t ++ ['\n'])
    rw [readline, if_neg hc, readline_of_no_newline (fun x hx => h x (by simp [hx]))]

/-- Stripping whitespace from a digit string followed by one newline leaves
exactly the digit string. -/
lemma trimWs_digits_newline {cs : List Char} (hne : cs ≠ [])
    (h : ∀ c ∈ cs, pyIsSpace c = false) : trimWs (cs ++ ['\n']) = cs := by
  unfold trimWs
  obtain ⟨c0, t0, rfl⟩ := List.exists_cons_of_ne_nil hne
  rw [List.cons_append, List.dropWhile_cons,
    if_neg (by simp [h c0 (by simp)])]
  rcases List.eq_nil_or_concat t0 with rfl | ⟨l', a, rfl⟩
  · have hc0 : pyIsSpace c0 = false := h c0 (by simp)
    simp only [pyIsSpace, Bool.or_eq_false_iff, beq_eq_false_iff_ne] at hc0
    simp [pyIsSpace, hc0]
  · rw [List.concat_eq_append] at h ⊢
    have hrev : (c0 :: ((l' ++ [a]) ++ ['\n'])).reverse
        = '\n' :: (a :: (l'.reverse ++ [c0])) := by
      simp
    rw [hrev, List.dropWhile_cons, if_pos (by decide),
      List.dropWhile_cons, if_neg (by simp [h a (by simp)])]
    simp

/-- `int()` on a pure digit string followed by one newline parses it. -/
lemma pyInt_digits {cs : List Char} (hne : cs ≠ [])
    (hd : ∀ c ∈ cs, isDigitChar c = true)
    (hsp : ∀ c ∈ cs, pyIsSpace c = false) :
    pyInt (cs ++ ['\n']) = some (Int.ofNat (digitsVal cs)) := by
  simp only [pyInt]
  rw [trimWs_digits_newline hne hsp]
  have hcond : (!cs.isEmpty && cs.all isDigitChar) = true := by
    obtain ⟨c0, t0, rfl⟩ := List.exists_cons_of_ne_nil hne
    simp [List.all_eq_true]
    exact ⟨hd c0 (by simp), fun x hx => hd x (by simp [hx])⟩
  rw [if_pos hcond]

/-! ### Schema-filtered rows -/

lemma lookup_cons_eq {c k v : String} {t : Record} (h : (c == k) = true) :
    List.lookup c ((k, v) :: t) = some v := by
  simp [List.lookup, h]

lemma lookup_cons_ne {c k v : String} {t : Record} (h : (c == k) = false) :
    List.lookup c ((k, v) :: t) = List.lookup c t := by
  simp [List.lookup, h]

/-- Record fields outside the schema do not influence any schema lookup. -/
lemma lookupField_filter {columns : List String} {c : String} (hc : c ∈ columns) :
    ∀ r : Record,
      lookupField (r.filter (fun p => decide (p.1 ∈ columns))) c = lookupField r c
  | [] => rfl
  | (k, v) :: t => by
    unfold lookupField
    by_cases hk : k ∈ columns
    · rw [List.filter_cons_of_pos (by simpa using hk)]
      cases hck : (c == k) with
      | false =>
        rw [lookup_cons_ne hck, lookup_cons_ne hck]
        exact lookupField_filter hc t
      | true =>
        rw [lookup_cons_eq hck, lookup_cons_eq hck]
    · rw [List.filter_cons_of_neg (by simpa using hk)]
      have hck : (c == k) = false := by
        cases hck : (c == k) with
        | false => rfl
        | true =>
          have hce : c = k := by simpa using hck
          exact absurd (hce ▸ hc) hk
      rw [lookup_cons_ne hck]
      exact lookupField_filter hc t

lemma get_index_eval (cs : List Char) :
    get_index (some cs)
      = match pyInt (readline cs) with
        | some v => Except.ok v
        | none => Except.error PyExn.valueError := rfl

/-! ### The claims -/

/-- Claim C1: in `process_batches` the checkpoint value is persisted only after
the batch has been written to the data file, every persisted value is the
exclusive end (`stop`) of the batch just written, the persisted sequence is
monotonically non-decreasing, and the cursor never advances past an item whose
batch was not written: after any `k` loop iterations the saved values are
exactly the first `k` batch stops and the data file holds exactly the rows of
all items in `[begin, batches[k])`. -/
theorem claim_C1 (app_list : List Item) (parser : Nat → String → Record)
    (columns : List String) (b e s k : Nat) (hs : 1 ≤ s) (hbe : b ≤ e)
    (hk : k < (batches b e s).length) :
    List.Chain' (· ≤ ·) (batches b e s)
    ∧ (stateAfter app_list parser columns b e s k).savedIndices
        = ((batches b e s).drop 1).take k
    ∧ (stateAfter app_list parser columns b e s k).dataFile
        = writerows columns (get_app_data app_list b ((batches b e s)[k]) parser) :=
  ⟨batches_chain hs (e - b) b e rfl hbe,
   (state_spec app_list parser columns hs hbe k hk).1,
   (state_spec app_list parser columns hs hbe k hk).2⟩

theorem claim_C1_witness :
    List.Chain' (· ≤ ·) (batches 0 5 2)
    ∧ (stateAfter [⟨1, "a"⟩, ⟨2, "b"⟩, ⟨3, "c"⟩, ⟨4, "d"⟩, ⟨5, "e"⟩]
          (fun _ n => [("name", n)]) ["name"] 0 5 2 3).savedIndices
        = ((batches 0 5 2).drop 1).take 3
    ∧ (stateAfter [⟨1, "a"⟩, ⟨2, "b"⟩, ⟨3, "c"⟩, ⟨4, "d"⟩, ⟨5, "e"⟩]
          (fun _ n => [("name", n)]) ["name"] 0 5 2 3).dataFile
        = writerows ["name"]
            (get_app_data [⟨1, "a"⟩, ⟨2, "b"⟩, ⟨3, "c"⟩, ⟨4, "d"⟩, ⟨5, "e"⟩] 0
              ((batches 0 5 2).get ⟨3, by decide⟩) (fun _ n => [("name", n)])) :=
  claim_C1 [⟨1, "a"⟩, ⟨2, "b"⟩, ⟨3, "c"⟩, ⟨4, "d"⟩, ⟨5, "e"⟩]
    (fun _ n => [("name", n)]) ["name"] 0 5 2 3 (by decide) (by decide) (by decide)

/-- Claim C2: for every `batchsize ≥ 1` and every range `[begin, end)` with
`begin ≤ end`, the boundary array partitions the range into consecutive chunks
that cover it exactly, with no gaps and no overlaps; every non-final chunk has
size `batchsize`, and the final chunk has size `(end - begin) % batchsize`
when that is nonzero (`batchsize` otherwise). -/
theorem claim_C2 (b e s : Nat) (hs : 1 ≤ s) (hbe : b ≤ e) :
    ((chunksOf (batches b e s)).map chunkItems).flatten = List.range' b (e - b)
    ∧ (∀ c ∈ (chunksOf (batches b e s)).dropLast, c.2 - c.1 = s)
    ∧ (chunksOf (batches b e s)).getLast?.map (fun c => c.2 - c.1)
        = if b = e then none
          else some (if (e - b) % s = 0 then s else (e - b) % s) := by
  refine ⟨?_, (chunk_sizes hs (e - b) b e rfl hbe).1, (chunk_sizes hs (e - b) b e rfl hbe).2⟩
  exact flatten_chunks (fun a c => List.range' a (c - a)) (by simp)
    (fun a m c ham hmc => range'_segment ham hmc) hs (e - b) b e rfl hbe

theorem claim_C2_witness :
    ((chunksOf (batches 0 23 10)).map chunkItems).flatten = List.range' 0 (23 - 0)
    ∧ (∀ c ∈ (chunksOf (batches 0 23 10)).dropLast, c.2 - c.1 = 10)
    ∧ (chunksOf (batches 0 23 10)).getLast?.map (fun c => c.2 - c.1)
        = if 0 = 23 then none
          else some (if (23 - 0) % 10 = 0 then 10 else (23 - 0) % 10) :=
  claim_C2 0 23 10 (by decide) (by decide)

/-- Claim C3 as stated is false: when `end = -1`, line 100 sets the effective
exclusive bound to `len(app_list) + 1`, not `len(app_list)` (here shown at
`len(app_list) = 5`, where the bound becomes `6`). -/
theorem claim_C3_counterexample : effective_end 5 (-1) ≠ (5 : Int) := by decide

/-- Claim C3 amended: with the default `end = -1`, the effective exclusive
bound becomes `len(app_list) + 1`; nevertheless, because Python slicing clamps
at the end of the list, the items fetched across all batches of the run are
exactly those from `begin` to the end of the item list. -/
theorem claim_C3_amended (app_list : List Item) (parser : Nat → String → Record)
    (b s : Nat) (hs : 1 ≤ s) (hb : b ≤ app_list.length) :
    effective_end app_list.length (-1) = (app_list.length : Int) + 1
    ∧ ((chunksOf (batches b (app_list.length + 1) s)).map
         (fun c => get_app_data app_list c.1 c.2 parser)).flatten
        = (app_list.drop b).map (fun row => parser row.appid row.name) := by
  constructor
  · simp [effective_end]
  · have hcov := flatten_chunks (fun a c => get_app_data app_list a c parser)
      (fun a => get_app_data_self app_list a parser)
      (fun a m c ham hmc => get_app_data_append app_list parser ham hmc)
      hs (app_list.length + 1 - b) b (app_list.length + 1) rfl (by omega)
    have h2 : get_app_data app_list b (app_list.length + 1) parser
        = (app_list.drop b).map (fun row => parser row.appid row.name) := by
      unfold get_app_data
      rw [slicePy_of_length_le app_list (by omega)]
    rw [← h2]
    exact hcov

theorem claim_C3_amended_witness :
    effective_end ([⟨1, "a"⟩, ⟨2, "b"⟩, ⟨3, "c"⟩] : List Item).length (-1)
        = (([⟨1, "a"⟩, ⟨2, "b"⟩, ⟨3, "c"⟩] : List Item).length : Int) + 1
    ∧ ((chunksOf (batches 1 (([⟨1, "a"⟩, ⟨2, "b"⟩, ⟨3, "c"⟩] : List Item).length + 1) 2)).map
         (fun c => get_app_data [⟨1, "a"⟩, ⟨2, "b"⟩, ⟨3, "c"⟩] c.1 c.2
           (fun _ n => [("name", n)]))).flatten
        = (([⟨1, "a"⟩, ⟨2, "b"⟩, ⟨3, "c"⟩] : List Item).drop 1).map
            (fun row => (fun _ n => ([("name", n)] : Record)) row.appid row.name) :=
  claim_C3_amended [⟨1, "a"⟩, ⟨2, "b"⟩, ⟨3, "c"⟩] (fun _ n => [("name", n)]) 1 2
    (by decide) (by decide)

/-- Claim C4 as stated is false: `get_request` catches only `ssl.SSLError` and
retries only falsy responses; a non-SSL connection error from `requests.get`
and a malformed JSON body both raise to the caller instead of being retried. -/
theorem claim_C4_counterexample :
    get_request ([AttemptResult.connectionError] : List (AttemptResult Unit))
        = FetchResult.raises PyExn.connectionError
    ∧ get_request ([AttemptResult.okMalformed] : List (AttemptResult Unit))
        = FetchResult.raises PyExn.jsonDecodeError := ⟨rfl, rfl⟩

/-- Claim C4 amended: `get_request` retries the same request indefinitely (no
retry limit) after a fixed wait on exactly two transient conditions — an
`ssl.SSLError` and a falsy (empty / error-status) response — and returns the
decoded JSON of the first truthy decodable response; any other connection
error and a JSON decode failure propagate to the caller. -/
theorem claim_C4_amended {α : Type} (rest : List (AttemptResult α)) (v : α) (n : Nat) :
    get_request (AttemptResult.sslError :: rest) = get_request rest
    ∧ get_request (AttemptResult.falsyResponse :: rest) = get_request rest
    ∧ get_request (AttemptResult.okJson v :: rest) = FetchResult.returns v
    ∧ get_request (AttemptResult.connectionError :: rest)
        = FetchResult.raises PyExn.connectionError
    ∧ get_request (AttemptResult.okMalformed :: rest)
        = FetchResult.raises PyExn.jsonDecodeError
    ∧ get_request (List.replicate n (AttemptResult.sslError : AttemptResult α))
        = FetchResult.retrying := by
  refine ⟨rfl, rfl, rfl, rfl, rfl, ?_⟩
  induction n with
  | zero => rfl
  | succ n ih =>
    rw [List.replicate_succ]
    exact ih

/-- Claim C5: if the parser raises on any single item of a chunk, the run
aborts with the exception uncaught; no row of the in-progress batch reaches
the data file and the index file is not updated — the durable state at the
abort is exactly the state after the last fully completed batch, and the
saved indices are exactly the stops of the completed batches. -/
theorem claim_C5 (app_list : List Item)
    (parserE : Nat → String → Except PyExn Record) (columns : List String)
    (b e s : Nat) (exn : PyExn) (st : BatchState)
    (h : process_batches_e app_list parserE columns b e s
          = Except.error (exn, st)) :
    ∃ pre c post,
      chunksOf (batches b e s) = pre ++ c :: post
      ∧ process_chunks_e app_list parserE columns ⟨[], []⟩ pre = Except.ok st
      ∧ get_app_data_e app_list c.1 c.2 parserE = Except.error exn
      ∧ st.savedIndices = pre.map Prod.snd := by
  obtain ⟨pre, c, post, h1, h2, h3, h4⟩ :=
    process_chunks_e_error app_list parserE columns (chunksOf (batches b e s))
      ⟨[], []⟩ st exn h
  exact ⟨pre, c, post, h1, h2, h3, by simpa using h4⟩

theorem claim_C5_witness :
    ∃ pre c post,
      chunksOf (batches 0 5 2) = pre ++ c :: post
      ∧ process_chunks_e [⟨1, "a"⟩, ⟨2, "b"⟩, ⟨3, "c"⟩, ⟨4, "d"⟩, ⟨5, "e"⟩]
            (fun i n => if i = 4 then Except.error PyExn.valueError
              else Except.ok [("name", n)]) ["name"] ⟨[], []⟩ pre
          = Except.ok ⟨[["a"], ["b"]], [2]⟩
      ∧ get_app_data_e [⟨1, "a"⟩, ⟨2, "b"⟩, ⟨3, "c"⟩, ⟨4, "d"⟩, ⟨5, "e"⟩] c.1 c.2
            (fun i n => if i = 4 then Except.error PyExn.valueError
              else Except.ok [("name", n)])
          = Except.error PyExn.valueError
      ∧ (⟨[["a"], ["b"]], [2]⟩ : BatchState).savedIndices = pre.map Prod.snd :=
  claim_C5 [⟨1, "a"⟩, ⟨2, "b"⟩, ⟨3, "c"⟩, ⟨4, "d"⟩, ⟨5, "e"⟩]
    (fun i n => if i = 4 then Except.error PyExn.valueError
      else Except.ok [("name", n)]) ["name"] 0 5 2 PyExn.valueError
    ⟨[["a"], ["b"]], [2]⟩ (by decide)

/-- Claim C6: `prepare_data_file` with `index = 0` writes exactly one header
row whose fields are the schema columns in order; with any `index ≠ 0` it
performs no file operation, leaving the file exactly as it was. -/
theorem claim_C6 (file : Option (List (List String))) (columns : List String)
    (i : Int) (hi : i ≠ 0) :
    prepare_data_file file 0 columns = some [columns]
    ∧ prepare_data_file file i columns = file := by
  constructor
  · rfl
  · simp [prepare_data_file, hi]

theorem claim_C6_witness :
    prepare_data_file (some [["old"]]) 0 ["colA", "colB"] = some [["colA", "colB"]]
    ∧ prepare_data_file (some [["old"]]) 7 ["colA", "colB"] = some [["old"]] :=
  claim_C6 (some [["old"]]) ["colA", "colB"] 7 (by decide)

/-- Claim C7: `get_index` on an absent file returns 0, and the index-save step
(`print(v, file=f)` after opening for overwrite) followed by `get_index` on
the same file returns exactly the value saved. -/
theorem claim_C7 : get_index none = Except.ok 0
    ∧ ∀ v : Nat, get_index (some (save_index v)) = Except.ok (Int.ofNat v) := by
  refine ⟨rfl, ?_⟩
  intro v
  obtain ⟨hne, hshape⟩ := natRepr_shape v
  have hd : ∀ c ∈ natRepr v, isDigitChar c = true := fun c hc => by
    obtain ⟨d, hd10, rfl⟩ := hshape c hc
    exact digitChar_digit hd10
  have hsp : ∀ c ∈ natRepr v, pyIsSpace c = false := fun c hc => by
    obtain ⟨d, hd10, rfl⟩ := hshape c hc
    exact digitChar_not_space hd10
  have hnl : ∀ c ∈ natRepr v, c ≠ '\n' := fun c hc => by
    obtain ⟨d, hd10, rfl⟩ := hshape c hc
    exact digitChar_ne_newline hd10
  show get_index (some (natRepr v ++ ['\n'])) = Except.ok (Int.ofNat v)
  rw [get_index_eval, readline_of_no_newline hnl, pyInt_digits hne hd hsp,
    digitsVal_natRepr]

/-- Claim C8 as stated is false: on an existing file whose first line is not a
valid base-10 integer, `get_index` does not return the default 0 — the
uncaught `ValueError` from `int()` propagates (here on content "abc"). -/
theorem claim_C8_counterexample :
    get_index (some ['a', 'b', 'c']) = Except.error PyExn.valueError := by decide

/-- Claim C8 amended: `get_index` returns the default 0 only when the file is
absent (`FileNotFoundError` is the only caught exception); when the file
exists but its first line is not a valid base-10 integer, the `ValueError`
raised by `int()` propagates to the caller. -/
theorem claim_C8_amended (cs : List Char) (h : pyInt (readline cs) = none) :
    get_index (some cs) = Except.error PyExn.valueError := by
  rw [get_index_eval, h]

theorem claim_C8_amended_witness :
    pyInt (readline ['1', '.', '5']) = none
    ∧ get_index (some ['1', '.', '5']) = Except.error PyExn.valueError :=
  ⟨by decide, claim_C8_amended ['1', '.', '5'] (by decide)⟩

/-- Claim C9: each written batch yields exactly one output row per record, in
batch order; every row has exactly one cell per schema column; record fields
outside the schema are dropped silently (filtering a record to its schema
fields changes nothing); and each cell is the record's value for that column,
blank when the record lacks the field — so a placeholder record still yields a
full-width row. -/
theorem claim_C9 (columns : List String) (recs : List Record) (r : Record) (i : Nat) :
    (writerows columns recs).length = recs.length
    ∧ (writerows columns recs)[i]? = (recs[i]?).map (csvRow columns)
    ∧ (csvRow columns r).length = columns.length
    ∧ csvRow columns (r.filter (fun p => decide (p.1 ∈ columns))) = csvRow columns r
    ∧ (csvRow columns r)[i]? = (columns[i]?).map (fun c => (lookupField r c).getD "") := by
  refine ⟨?_, ?_, ?_, ?_, ?_⟩
  · simp [writerows]
  · simp [writerows]
  · simp [csvRow]
  · unfold csvRow
    refine List.map_congr_left ?_
    intro c hc
    rw [lookupField_filter hc r]
  · simp [csvRow]

/-- Claim C10: `prepare_data_file` with `index = 0` on a path where a data
file already exists truncates it — whatever rows were there before, the file
afterwards contains only the header row. -/
theorem claim_C10 (prior : List (List String)) (columns : List String) :
    prepare_data_file (some prior) 0 columns = some [columns] := by
  simp [prepare_data_file]

end SteamData
